/-
Verification of the drawmance real-time collaboration server
(src/server.js, final variant): room membership bookkeeping, the
per-room command log, the matchmaking queue, and the broadcast
behaviour of every socket event handler are embedded shallowly below.
JavaScript objects are modelled as association lists with JS object
semantics (assignment replaces the value of an existing key in place,
deletion removes the key), `socket.data` is a per-connection record,
and string truthiness (empty string is falsy) is modelled explicitly.
Broadcasts (`io.to(room).emit`) and direct replies (`socket.emit`)
are recorded as an emission list so that delivery targets can be
reasoned about.
-/
import Mathlib

namespace Drawmance

/-- A drawing command as stored in `roomsHistory`: an id, a type tag,
free-form numeric fields, and the `senderSocketId` the server stamps
onto the object in the sendDrawingCommand handler. -/
structure Command where
  id : String
  type : String
  fields : List (String × Int)
  senderSocketId : Option String := none
deriving DecidableEq

/-- The per-connection `socket.data` record: `username` and `room`,
both possibly unset (JS `undefined` is `none`). -/
structure Conn where
  username : Option String := none
  room : Option String := none
deriving DecidableEq

/-- One entry of `waitingQueue`: the socket id and the username
snapshot taken when the entry was pushed. -/
structure WaitEntry where
  sid : String
  username : String
deriving DecidableEq

/-- Delivery target of an emission: a single socket (`socket.emit`)
or every member of a room (`io.to(room).emit`). -/
inductive Target where
  | toSocket (sid : String)
  | toRoom (room : String)
deriving DecidableEq

/-- The outbound events the server emits. -/
inductive EventOut where
  | initCanvas (hist : List Command)
  | receiveDrawingCommand (c : Command)
  | clearSignal
  | undoSignal
  | redoSignal
  | updateUsers (n : Nat)
  | partnerFound (room : String) (partner : Option String)
  | waiting (msg : String)
  | errorMsg (msg : String)
  | message (data : String)
  | logSnapshot (hist : List Command)
deriving DecidableEq

/-- One recorded emission: a target and the event sent to it. -/
structure Emit where
  target : Target
  event : EventOut
deriving DecidableEq

/-- The whole server state: the per-socket `socket.data` records, the
`roomsUsers` map (room code to member map of socket id to username),
the `roomsHistory` map (room code to command log), and the
matchmaking `waitingQueue`. -/
structure ServerState where
  conns : List (String × Conn) := []
  roomsUsers : List (String × List (String × String)) := []
  roomsHistory : List (String × List Command) := []
  waitingQueue : List WaitEntry := []
deriving DecidableEq

/-- JS object read `m[k]`: the value at key `k`, if present. -/
def getKey {α : Type} : List (String × α) → String → Option α
  | [], _ => none
  | (k1, v) :: rest, k => if k1 = k then some v else getKey rest k

/-- JS object write `m[k] = v`: replace the value of an existing key
in place, otherwise add the key at the end. -/
def setKey {α : Type} : List (String × α) → String → α → List (String × α)
  | [], k, v => [(k, v)]
  | (k1, v1) :: rest, k, v =>
    if k1 = k then (k, v) :: rest else (k1, v1) :: setKey rest k v

/-- JS object delete `delete m[k]`: remove the key. -/
def delKey {α : Type} : List (String × α) → String → List (String × α)
  | [], _ => []
  | (k1, v1) :: rest, k =>
    if k1 = k then delKey rest k else (k1, v1) :: delKey rest k

/-- JS truthiness of a string-or-undefined value: `undefined` and the
empty string are falsy. -/
def truthy : Option String → Bool
  | none => false
  | some s => s != ""

/-- JS `o || "Anonymous"`. -/
def orAnon : Option String → String
  | none => "Anonymous"
  | some u => if u = "" then "Anonymous" else u

/-- JS `name || o` where `name` is a string argument. -/
def orElseStr (name : String) (o : Option String) : Option String :=
  if name = "" then o else some name

/-- The `socket.data` record of a socket id, defaulting to the empty
record for a socket that never stored anything. -/
def connOf (s : ServerState) (sid : String) : Conn :=
  (getKey s.conns sid).getD {}

/-- `Object.keys(roomsUsers[room]).length`, 0 when the room is absent
(the count computed by `emitActiveUsers`). -/
def usersCount (s : ServerState) (room : String) : Nat :=
  match getKey s.roomsUsers room with
  | some m => m.length
  | none => 0

/-- The emission produced by `emitActiveUsers(room)`. -/
def mkUsersEmit (s : ServerState) (room : String) : Emit :=
  ⟨.toRoom room, .updateUsers (usersCount s room)⟩

/-- The `username` event handler: `socket.data.username = name`. -/
def setUsername (s : ServerState) (sid name : String) : ServerState :=
  { s with conns := setKey s.conns sid { connOf s sid with username := some name } }

/-- The leave-previous-room step at the top of the `joinRoom` handler:
guarded by `socket.data.room && roomsUsers[socket.data.room] &&
socket.data.room !== room`, it removes the socket from the previous
room's member map, re-emits the presence count, and deletes the room
entry when the member map became empty. -/
def joinLeavePrev (s : ServerState) (sid room : String) (prev? : Option String) :
    ServerState × List Emit :=
  match prev? with
  | none => (s, [])
  | some prev =>
    if prev ≠ "" ∧ (getKey s.roomsUsers prev).isSome ∧ prev ≠ room then
      let mems := delKey ((getKey s.roomsUsers prev).getD []) sid
      let s1 := { s with roomsUsers := setKey s.roomsUsers prev mems }
      let em := mkUsersEmit s1 prev
      (if mems.length = 0 then
        { s1 with roomsUsers := delKey s1.roomsUsers prev }
      else s1, [em])
    else (s, [])

/-- The `joinRoom` event handler: optionally leave the previous room,
set `socket.data.room`, add the socket to the target room's member
map (`socket.data.username || 'Anonymous'`), broadcast the presence
count, and reply to the joining socket with the room's history
(`roomsHistory[room] || []`). -/
def joinRoom (s : ServerState) (sid room : String) : ServerState × List Emit :=
  let c := connOf s sid
  let lp := joinLeavePrev s sid room c.room
  let s1 := lp.1
  let s2 := { s1 with conns := setKey s1.conns sid { c with room := some room } }
  let mems := (getKey s2.roomsUsers room).getD []
  let s3 := { s2 with roomsUsers := setKey s2.roomsUsers room (setKey mems sid (orAnon c.username)) }
  (s3, lp.2 ++ [mkUsersEmit s3 room,
    ⟨.toSocket sid, .initCanvas ((getKey s3.roomsHistory room).getD [])⟩])

/-- The `sendDrawingCommand` event handler: guarded by
`socket.data.room && data.command`; stamps `senderSocketId` onto the
command, appends it to the room's history (initialising the history
if absent), and broadcasts it to the whole room including the
sender. -/
def sendDrawingCommand (s : ServerState) (sid : String) (cmd? : Option Command) :
    ServerState × List Emit :=
  match (connOf s sid).room, cmd? with
  | some room, some cmd =>
    if room ≠ "" then
      let cmd2 := { cmd with senderSocketId := some sid }
      let hist := (getKey s.roomsHistory room).getD []
      ({ s with roomsHistory := setKey s.roomsHistory room (hist ++ [cmd2]) },
       [⟨.toRoom room, .receiveDrawingCommand cmd2⟩])
    else (s, [])
  | _, _ => (s, [])

/-- The `clearCanvas` event handler: guarded by
`room && roomsUsers[room]`; broadcasts the clear signal to the room
and truncates `roomsHistory[room]` to the empty log. -/
def clearCanvas (s : ServerState) (room : String) : ServerState × List Emit :=
  if room ≠ "" ∧ (getKey s.roomsUsers room).isSome then
    ({ s with roomsHistory := setKey s.roomsHistory room [] },
     [⟨.toRoom room, .clearSignal⟩])
  else (s, [])

/-- The `undoCommand` event handler: guarded by
`room && roomsHistory[room] && roomsHistory[room].length > 0`; it
only broadcasts the undo signal to the room and leaves the history
untouched. -/
def undoCommand (s : ServerState) (room : String) : ServerState × List Emit :=
  match getKey s.roomsHistory room with
  | some hist =>
    if room ≠ "" ∧ 0 < hist.length then
      (s, [⟨.toRoom room, .undoSignal⟩])
    else (s, [])
  | none => (s, [])

/-- The `redoCommand` event handler: same guard as undo, broadcasts
only the redo signal. -/
def redoCommand (s : ServerState) (room : String) : ServerState × List Emit :=
  match getKey s.roomsHistory room with
  | some hist =>
    if room ≠ "" ∧ 0 < hist.length then
      (s, [⟨.toRoom room, .redoSignal⟩])
    else (s, [])
  | none => (s, [])

/-- The `chatMessage` event handler: relays the message to the
sender's current room when set. -/
def chatMessage (s : ServerState) (sid data : String) : ServerState × List Emit :=
  match (connOf s sid).room with
  | some room =>
    if room ≠ "" then (s, [⟨.toRoom room, .message data⟩]) else (s, [])
  | none => (s, [])

/-- The `findPartner` event handler. `fresh` stands for the value
returned by `generateRoomCode()` (a random 6-character code, passed
in as an oracle because the embedding is deterministic). The handler:
updates the username (`name || socket.data.username`), errors out if
it is still falsy, returns silently if the socket is already queued,
otherwise pairs with the first queued entry whose socket id differs
(removing it from the queue, pointing both sockets' `data.room` at
the fresh code, adding both to the fresh room's member map,
broadcasting the presence count and replying `partnerFound` to each)
or, with no partner available, appends itself to the queue and
replies `waiting`. -/
def findPartner (s : ServerState) (sid name fresh : String) : ServerState × List Emit :=
  let c := connOf s sid
  let uname := orElseStr name c.username
  let s1 := { s with conns := setKey s.conns sid { c with username := uname } }
  if truthy uname = false then
    (s1, [⟨.toSocket sid, .errorMsg "Username not set"⟩])
  else if (s1.waitingQueue.find? (fun u => u.sid == sid)).isSome then
    (s1, [])
  else
    match s1.waitingQueue.find? (fun u => u.sid != sid) with
    | some partner =>
      let q2 := s1.waitingQueue.eraseP (fun u => u.sid != sid)
      let pc := connOf s1 partner.sid
      let s2 := { s1 with
        conns := setKey (setKey s1.conns sid { c with username := uname, room := some fresh })
          partner.sid { pc with room := some fresh },
        waitingQueue := q2 }
      let mems := (getKey s2.roomsUsers fresh).getD []
      let mems2 := setKey (setKey mems sid (uname.getD "")) partner.sid (orAnon pc.username)
      let s3 := { s2 with roomsUsers := setKey s2.roomsUsers fresh mems2 }
      (s3, [mkUsersEmit s3 fresh,
        ⟨.toSocket sid, .partnerFound fresh pc.username⟩,
        ⟨.toSocket partner.sid, .partnerFound fresh uname⟩])
    | none =>
      ({ s1 with waitingQueue := s1.waitingQueue ++ [⟨sid, uname.getD ""⟩] },
       [⟨.toSocket sid, .waiting "Waiting for a partner..."⟩])

/-- The `cancelMatch` event handler: remove the socket's entry from
the waiting queue if present. -/
def cancelMatch (s : ServerState) (sid : String) : ServerState × List Emit :=
  ({ s with waitingQueue := s.waitingQueue.eraseP (fun u => u.sid == sid) }, [])

/-- The `disconnect` event handler: remove the socket from the
waiting queue; then, guarded by `socket.data.room &&
roomsUsers[socket.data.room]`, remove it from its room's member map,
re-emit the presence count, and delete the room entry when the member
map became empty. The socket's `socket.data` record dies with the
socket. -/
def disconnect (s : ServerState) (sid : String) : ServerState × List Emit :=
  let s1 := { s with waitingQueue := s.waitingQueue.eraseP (fun u => u.sid == sid) }
  let c := connOf s1 sid
  match c.room with
  | some room =>
    if room ≠ "" ∧ (getKey s1.roomsUsers room).isSome then
      let mems := delKey ((getKey s1.roomsUsers room).getD []) sid
      let s2 := { s1 with roomsUsers := setKey s1.roomsUsers room mems }
      let em := mkUsersEmit s2 room
      let s3 := if mems.length = 0 then
          { s2 with roomsUsers := delKey s2.roomsUsers room }
        else s2
      ({ s3 with conns := delKey s3.conns sid }, [em])
    else ({ s1 with conns := delKey s1.conns sid }, [])
  | none => ({ s1 with conns := delKey s1.conns sid }, [])

/-- The inbound events of the server, each carrying the id of the
socket whose handler fires. -/
inductive Event where
  | username (sid name : String)
  | joinRoom (sid room : String)
  | sendDrawingCommand (sid : String) (cmd? : Option Command)
  | clearCanvas (sid room : String)
  | undoCommand (sid room : String)
  | redoCommand (sid room : String)
  | chatMessage (sid data : String)
  | findPartner (sid name fresh : String)
  | cancelMatch (sid : String)
  | disconnect (sid : String)
deriving DecidableEq

/-- Dispatch one inbound event to its handler. -/
def step (s : ServerState) : Event → ServerState × List Emit
  | .username sid name => (setUsername s sid name, [])
  | .joinRoom sid room => joinRoom s sid room
  | .sendDrawingCommand sid cmd? => sendDrawingCommand s sid cmd?
  | .clearCanvas _ room => clearCanvas s room
  | .undoCommand _ room => undoCommand s room
  | .redoCommand _ room => redoCommand s room
  | .chatMessage sid data => chatMessage s sid data
  | .findPartner sid name fresh => findPartner s sid name fresh
  | .cancelMatch sid => cancelMatch s sid
  | .disconnect sid => disconnect s sid

/-- Run a sequence of inbound events, collecting all emissions. -/
def runTrace (s : ServerState) : List Event → ServerState × List Emit
  | [] => (s, [])
  | e :: es =>
    let r1 := step s e
    let r2 := runTrace r1.1 es
    (r2.1, r1.2 ++ r2.2)

/-- Keys of an association list are pairwise distinct (JS objects
always satisfy this). -/
def KU {α : Type} (m : List (String × α)) : Prop :=
  m.Pairwise (fun a b => a.1 ≠ b.1)


/-- The registry invariant relating `roomsUsers` and `socket.data.room`. -/
def Inv (s : ServerState) : Prop :=
  KU s.roomsUsers ∧
  ∀ p ∈ s.roomsUsers, p.1 ≠ "" ∧ ∀ q ∈ p.2, (connOf s q.1).room = some p.1

instance decInv (s : ServerState) : Decidable (Inv s) := by
  unfold Inv KU
  infer_instance

/-- Socket id `sid` occurs in room `room`'s member map. -/
def memberOf (s : ServerState) (room sid : String) : Bool :=
  match getKey s.roomsUsers room with
  | some m => (getKey m sid).isSome
  | none => false

/-- Events whose preservation of the membership invariant is claimed:
everything except matchmaking pairing, with join restricted to
nonempty room codes. -/
def eventOK : Event → Bool
  | .joinRoom _ room => room != ""
  | .findPartner _ _ _ => false
  | _ => true

/-- Each socket id occurs at most once in the waiting queue. -/
def queueUnique (s : ServerState) : Prop :=
  s.waitingQueue.Pairwise (fun a b => a.sid ≠ b.sid)

instance decQueueUnique (s : ServerState) : Decidable (queueUnique s) := by
  unfold queueUnique
  infer_instance


/-- Recognises a history-replay emission (`initializeCanvas`). -/
def isInitEmit : Emit → Bool
  | ⟨_, .initCanvas _⟩ => true
  | _ => false

/-- Recognises an error notification emission. -/
def isErrEmit : Emit → Bool
  | ⟨_, .errorMsg _⟩ => true
  | _ => false

/-- Modelled from the spec: the repository has no handler for the
move-command or finalize-move events under src/ (no code implements
`updateById`), so §4.2 is followed: linear search for an existing
command with matching id; if found, its fields are replaced in place.
-/
def replaceById : List Command → Command → List Command
  | [], _ => []
  | c :: rest, upd =>
    if c.id = upd.id then { c with fields := upd.fields } :: rest
    else c :: replaceById rest upd

/-- Modelled from the spec: `updateById(roomCode, command)` per §4.2 —
if a command with the given id exists in the room's log, its fields
are replaced in place and the room's updated log is rebroadcast; on a
miss the update is discarded (the miss policy is an open question in
the spec and is not claimed). -/
def updateById (s : ServerState) (room : String) (upd : Command) :
    ServerState × List Emit :=
  match getKey s.roomsHistory room with
  | some hist =>
    if hist.any (fun c => c.id == upd.id) then
      let hist2 := replaceById hist upd
      ({ s with roomsHistory := setKey s.roomsHistory room hist2 },
       [⟨.toRoom room, .logSnapshot hist2⟩])
    else (s, [])
  | none => (s, [])


/-
Concrete fixture states used by the counterexamples and witnesses.
-/

/-- A sample stroke command. -/
def cmdA : Command := { id := "a1", type := "stroke", fields := [("x", 1)] }

/-- `cmdA` as stored by the server: stamped with its sender. -/
def cmdStamped : Command := { cmdA with senderSocketId := some "A" }

/-- An id-addressed update moving `cmdA` to x = 5. -/
def updCmd : Command := { id := "a1", type := "stroke", fields := [("x", 5)] }

/-- `cmdA` after the update: same id, fields moved to x = 5. -/
def cmdUpdated : Command := { id := "a1", type := "stroke", fields := [("x", 5)] }

/-- A state with a retained history for room R and no member entry. -/
def histOnly : ServerState := { roomsHistory := [("R", [cmdA])] }

/-- A state where socket A is the sole member of room R, which also
has one logged command. -/
def roomWithMember : ServerState :=
  { conns := [("A", { username := none, room := some "R" })],
    roomsUsers := [("R", [("A", "Anonymous")])],
    roomsHistory := [("R", [cmdA])] }

/-- A state whose waiting queue holds socket A. -/
def queuedState : ServerState := { waitingQueue := [⟨"A", "alice"⟩] }

/-- A state where socket S sits in room R with an empty history. -/
def senderState : ServerState :=
  { conns := [("S", { username := none, room := some "R" })] }

/-
Association-list lemmas: reading, writing and deleting keys, and the
key-uniqueness predicate that JS objects satisfy by construction.
-/

theorem getKey_setKey_self {α : Type} (m : List (String × α)) (k : String) (v : α) :
    getKey (setKey m k v) k = some v := by
  induction m with
  | nil => simp [getKey, setKey]
  | cons p rest ih =>
    obtain ⟨k1, v1⟩ := p
    by_cases h : k1 = k <;> simp [getKey, setKey, h, ih]

theorem getKey_setKey_ne {α : Type} {m : List (String × α)} {k k2 : String} (v : α)
    (h : k2 ≠ k) : getKey (setKey m k v) k2 = getKey m k2 := by
  induction m with
  | nil =>
    simp only [setKey, getKey]
    rw [if_neg (Ne.symm h)]
  | cons p rest ih =>
    obtain ⟨k1, v1⟩ := p
    by_cases h1 : k1 = k
    · subst h1
      simp only [setKey, if_pos rfl, getKey]
      rw [if_neg (Ne.symm h), if_neg (Ne.symm h)]
    · simp only [setKey, if_neg h1, getKey]
      by_cases h2 : k1 = k2
      · rw [if_pos h2, if_pos h2]
      · rw [if_neg h2, if_neg h2]
        exact ih

theorem getKey_delKey_self {α : Type} (m : List (String × α)) (k : String) :
    getKey (delKey m k) k = none := by
  induction m with
  | nil => simp [getKey, delKey]
  | cons p rest ih =>
    obtain ⟨k1, v1⟩ := p
    by_cases h : k1 = k
    · rw [delKey, if_pos h]
      exact ih
    · rw [delKey, if_neg h, getKey, if_neg h]
      exact ih

theorem getKey_delKey_ne {α : Type} {m : List (String × α)} {k k2 : String}
    (h : k2 ≠ k) : getKey (delKey m k) k2 = getKey m k2 := by
  induction m with
  | nil => simp [getKey, delKey]
  | cons p rest ih =>
    obtain ⟨k1, v1⟩ := p
    by_cases h1 : k1 = k
    · subst h1
      rw [delKey, if_pos rfl, getKey, if_neg (fun h2 => h (h2.symm))]
      exact ih
    · rw [delKey, if_neg h1, getKey, getKey]
      by_cases h2 : k1 = k2
      · rw [if_pos h2, if_pos h2]
      · rw [if_neg h2, if_neg h2]
        exact ih

theorem delKey_sublist {α : Type} (m : List (String × α)) (k : String) :
    List.Sublist (delKey m k) m := by
  induction m with
  | nil => simp [delKey]
  | cons p rest ih =>
    obtain ⟨k1, v1⟩ := p
    by_cases h : k1 = k
    · rw [delKey, if_pos h]
      exact List.Sublist.cons _ ih
    · rw [delKey, if_neg h]
      exact List.Sublist.cons₂ _ ih

theorem mem_setKey {α : Type} {m : List (String × α)} {k : String} {v : α}
    {p : String × α} (h : p ∈ setKey m k v) : p = (k, v) ∨ p ∈ m := by
  induction m with
  | nil => simpa [setKey] using h
  | cons q rest ih =>
    obtain ⟨k1, v1⟩ := q
    by_cases h1 : k1 = k
    · rw [setKey, if_pos h1] at h
      rcases List.mem_cons.mp h with h2 | h2
      · exact Or.inl h2
      · exact Or.inr (List.mem_cons_of_mem _ h2)
    · rw [setKey, if_neg h1] at h
      rcases List.mem_cons.mp h with h2 | h2
      · exact Or.inr (by simp [h2])
      · rcases ih h2 with h3 | h3
        · exact Or.inl h3
        · exact Or.inr (List.mem_cons_of_mem _ h3)

theorem mem_setKey_ku {α : Type} {m : List (String × α)} {k : String} {v : α}
    {p : String × α} (hku : KU m) (h : p ∈ setKey m k v) :
    p = (k, v) ∨ (p ∈ m ∧ p.1 ≠ k) := by
  induction m with
  | nil => simpa [setKey] using h
  | cons q rest ih =>
    obtain ⟨k1, v1⟩ := q
    rw [KU, List.pairwise_cons] at hku
    by_cases h1 : k1 = k
    · subst h1
      rw [setKey, if_pos rfl] at h
      rcases List.mem_cons.mp h with h2 | h2
      · exact Or.inl h2
      · exact Or.inr ⟨List.mem_cons_of_mem _ h2, Ne.symm (hku.1 p h2)⟩
    · rw [setKey, if_neg h1] at h
      rcases List.mem_cons.mp h with h2 | h2
      · exact Or.inr ⟨by simp [h2], by simp [h2, h1]⟩
      · rcases ih hku.2 h2 with h3 | h3
        · exact Or.inl h3
        · exact Or.inr ⟨List.mem_cons_of_mem _ h3.1, h3.2⟩

theorem mem_delKey {α : Type} {m : List (String × α)} {k : String}
    {p : String × α} (h : p ∈ delKey m k) : p ∈ m ∧ p.1 ≠ k := by
  induction m with
  | nil => simp [delKey] at h
  | cons q rest ih =>
    obtain ⟨k1, v1⟩ := q
    by_cases h1 : k1 = k
    · rw [delKey, if_pos h1] at h
      exact ⟨List.mem_cons_of_mem _ (ih h).1, (ih h).2⟩
    · rw [delKey, if_neg h1] at h
      rcases List.mem_cons.mp h with h2 | h2
      · exact ⟨by simp [h2], by simp [h2, h1]⟩
      · exact ⟨List.mem_cons_of_mem _ (ih h2).1, (ih h2).2⟩

theorem getKey_mem {α : Type} {m : List (String × α)} {k : String} {v : α}
    (h : getKey m k = some v) : (k, v) ∈ m := by
  induction m with
  | nil => simp [getKey] at h
  | cons q rest ih =>
    obtain ⟨k1, v1⟩ := q
    by_cases h1 : k1 = k
    · subst h1
      rw [getKey, if_pos rfl] at h
      cases Option.some.injEq v1 v ▸ h
      exact List.mem_cons_self _ _
    · rw [getKey, if_neg h1] at h
      exact List.mem_cons_of_mem _ (ih h)

theorem getKey_isSome_of_mem {α : Type} {m : List (String × α)}
    {p : String × α} (h : p ∈ m) : (getKey m p.1).isSome := by
  induction m with
  | nil => simp at h
  | cons q rest ih =>
    obtain ⟨k1, v1⟩ := q
    rcases List.mem_cons.mp h with h1 | h1
    · simp [getKey, h1]
    · by_cases h2 : k1 = p.1 <;> simp [getKey, h2, ih h1]

theorem getKey_eq_of_mem_ku {α : Type} {m : List (String × α)}
    {p : String × α} (hku : KU m) (h : p ∈ m) : getKey m p.1 = some p.2 := by
  induction m with
  | nil => simp at h
  | cons q rest ih =>
    obtain ⟨k1, v1⟩ := q
    rw [KU, List.pairwise_cons] at hku
    rcases List.mem_cons.mp h with h1 | h1
    · simp [getKey, h1]
    · have hne : k1 ≠ p.1 := hku.1 p h1
      simp only [getKey, if_neg hne]
      exact ih hku.2 h1

theorem ku_setKey {α : Type} {m : List (String × α)} (k : String) (v : α)
    (hku : KU m) : KU (setKey m k v) := by
  induction m with
  | nil => simp [setKey, KU]
  | cons q rest ih =>
    obtain ⟨k1, v1⟩ := q
    rw [KU, List.pairwise_cons] at hku
    by_cases h1 : k1 = k
    · subst h1
      rw [setKey, if_pos rfl, KU, List.pairwise_cons]
      exact ⟨hku.1, hku.2⟩
    · rw [setKey, if_neg h1, KU, List.pairwise_cons]
      constructor
      · intro b hb
        rcases mem_setKey hb with h2 | h2
        · simp [h2, h1]
        · exact hku.1 b h2
      · exact ih hku.2

theorem ku_delKey {α : Type} {m : List (String × α)} (k : String)
    (hku : KU m) : KU (delKey m k) := by
  exact List.Pairwise.sublist (delKey_sublist m k) hku

theorem setKey_setKey_self {α : Type} (m : List (String × α)) (k : String) (v1 v2 : α) :
    setKey (setKey m k v1) k v2 = setKey m k v2 := by
  induction m with
  | nil => simp [setKey]
  | cons p rest ih =>
    obtain ⟨k1, w⟩ := p
    by_cases h : k1 = k
    · rw [setKey, if_pos h, setKey, if_pos rfl, setKey, if_pos h]
    · rw [setKey, if_neg h, setKey, if_neg h, setKey, if_neg h, ih]

/-
The room-membership invariant: room keys are unique, every live room
has a nonempty code, and every socket id occurring in a room's member
map has its `socket.data.room` pointing back at that room. It implies
that a socket id belongs to at most one room's member map.
-/

/-- Transport of the invariant along a state with identical
`roomsUsers` and identical room pointers. -/
theorem inv_of_same (s t : ServerState) (hU : t.roomsUsers = s.roomsUsers)
    (hR : ∀ x, (connOf t x).room = (connOf s x).room) (h : Inv s) : Inv t := by
  refine ⟨hU ▸ h.1, ?_⟩
  intro p hp
  rw [hU] at hp
  exact ⟨(h.2 p hp).1, fun q hq => (hR q.1).trans ((h.2 p hp).2 q hq)⟩

theorem inv_setUsername {s : ServerState} {sid name : String} (h : Inv s) :
    Inv (setUsername s sid name) := by
  refine inv_of_same s (setUsername s sid name) rfl ?_ h
  intro x
  by_cases hx : x = sid
  · subst hx
    show ((getKey (setKey s.conns x { connOf s x with username := some name }) x).getD {}).room =
      (connOf s x).room
    rw [getKey_setKey_self]
    rfl
  · show ((getKey (setKey s.conns sid { connOf s sid with username := some name }) x).getD {}).room =
      (connOf s x).room
    rw [getKey_setKey_ne _ hx]
    rfl

theorem inv_sendDrawingCommand {s : ServerState} {sid : String} {cmd? : Option Command}
    (h : Inv s) : Inv (sendDrawingCommand s sid cmd?).1 := by
  simp only [sendDrawingCommand]
  split
  · split
    · exact inv_of_same s _ rfl (fun _ => rfl) h
    · exact h
  · exact h

theorem inv_clearCanvas {s : ServerState} {room : String} (h : Inv s) :
    Inv (clearCanvas s room).1 := by
  simp only [clearCanvas]
  split
  · exact inv_of_same s _ rfl (fun _ => rfl) h
  · exact h

theorem inv_undoCommand {s : ServerState} {room : String} (h : Inv s) :
    Inv (undoCommand s room).1 := by
  simp only [undoCommand]
  split
  · split
    · exact h
    · exact h
  · exact h

theorem inv_redoCommand {s : ServerState} {room : String} (h : Inv s) :
    Inv (redoCommand s room).1 := by
  simp only [redoCommand]
  split
  · split
    · exact h
    · exact h
  · exact h

theorem inv_chatMessage {s : ServerState} {sid data : String} (h : Inv s) :
    Inv (chatMessage s sid data).1 := by
  simp only [chatMessage]
  split
  · split
    · exact h
    · exact h
  · exact h

theorem inv_cancelMatch {s : ServerState} {sid : String} (h : Inv s) :
    Inv (cancelMatch s sid).1 := by
  exact inv_of_same s _ rfl (fun _ => rfl) h

theorem joinLeavePrev_conns {s : ServerState} {sid room : String} {prev? : Option String} :
    (joinLeavePrev s sid room prev?).1.conns = s.conns := by
  simp only [joinLeavePrev]
  split
  · rfl
  · split
    · split <;> rfl
    · rfl

theorem joinLeavePrev_hist {s : ServerState} {sid room : String} {prev? : Option String} :
    (joinLeavePrev s sid room prev?).1.roomsHistory = s.roomsHistory := by
  simp only [joinLeavePrev]
  split
  · rfl
  · split
    · split <;> rfl
    · rfl

theorem joinLeavePrev_queue {s : ServerState} {sid room : String} {prev? : Option String} :
    (joinLeavePrev s sid room prev?).1.waitingQueue = s.waitingQueue := by
  simp only [joinLeavePrev]
  split
  · rfl
  · split
    · split <;> rfl
    · rfl

theorem inv_joinLeavePrev {s : ServerState} {sid room : String} {prev? : Option String}
    (h : Inv s) : Inv (joinLeavePrev s sid room prev?).1 := by
  obtain ⟨hku, hprop⟩ := h
  simp only [joinLeavePrev]
  split
  · exact ⟨hku, hprop⟩
  · split
    next hcond =>
      obtain ⟨hprev, hsome, hpr⟩ := hcond
      obtain ⟨m0, hm0⟩ := Option.isSome_iff_exists.mp hsome
      rw [hm0]
      simp only [Option.getD_some]
      split
      · -- the previous room became empty and its entry was deleted
        refine ⟨ku_delKey _ (ku_setKey _ _ hku), ?_⟩
        intro p hp
        obtain ⟨hp1, hp2⟩ := mem_delKey hp
        rcases mem_setKey_ku hku hp1 with h2 | h2
        · exact absurd (by rw [h2]) hp2
        · exact ⟨(hprop p h2.1).1, fun q hq => (hprop p h2.1).2 q hq⟩
      · -- the previous room still has members
        refine ⟨ku_setKey _ _ hku, ?_⟩
        intro p hp
        rcases mem_setKey_ku hku hp with h2 | h2
        · subst h2
          refine ⟨hprev, ?_⟩
          intro q hq
          obtain ⟨hq1, _⟩ := mem_delKey hq
          exact (hprop (_, m0) (getKey_mem hm0)).2 q hq1
        · exact ⟨(hprop p h2.1).1, fun q hq => (hprop p h2.1).2 q hq⟩
    next =>
      exact ⟨hku, hprop⟩

/-- After the leave-previous-room step, no room other than the join
target still lists the joining socket in its member map. -/
theorem leavePrev_no_sid {s : ServerState} {sid room : String}
    (h : Inv s) (p : String × List (String × String))
    (hp : p ∈ (joinLeavePrev s sid room (connOf s sid).room).1.roomsUsers)
    (hpr : p.1 ≠ room) (q : String × String) (hq : q ∈ p.2) (hqs : q.1 = sid) :
    False := by
  obtain ⟨hku, hprop⟩ := h
  rcases hcr : (connOf s sid).room with _ | prev
  · rw [hcr] at hp
    simp only [joinLeavePrev] at hp
    have := (hprop p hp).2 q hq
    rw [hqs, hcr] at this
    exact Option.noConfusion this
  · rw [hcr] at hp
    simp only [joinLeavePrev] at hp
    by_cases hcond : prev ≠ "" ∧ (getKey s.roomsUsers prev).isSome ∧ prev ≠ room
    · rw [if_pos hcond] at hp
      obtain ⟨m0, hm0⟩ := Option.isSome_iff_exists.mp hcond.2.1
      rw [hm0] at hp
      simp only [Option.getD_some] at hp
      by_cases hlen : (delKey m0 sid).length = 0
      · rw [if_pos hlen] at hp
        obtain ⟨hp1, hp2⟩ := mem_delKey hp
        rcases mem_setKey_ku hku hp1 with h2 | h2
        · exact hp2 (by rw [h2])
        · have h3 := (hprop p h2.1).2 q hq
          rw [hqs, hcr] at h3
          exact h2.2 (Option.some_inj.mp h3).symm
      · rw [if_neg hlen] at hp
        rcases mem_setKey_ku hku hp with h2 | h2
        · have hq2 := h2 ▸ hq
          exact (mem_delKey hq2).2 hqs
        · have h3 := (hprop p h2.1).2 q hq
          rw [hqs, hcr] at h3
          exact h2.2 (Option.some_inj.mp h3).symm
    · rw [if_neg hcond] at hp
      have hroom := (hprop p hp).2 q hq
      rw [hqs, hcr] at hroom
      have hpp : p.1 = prev := (Option.some_inj.mp hroom).symm
      refine hcond ⟨hpp ▸ (hprop p hp).1, ?_, hpp ▸ hpr⟩
      have h4 := getKey_isSome_of_mem hp
      rwa [hpp] at h4

/-- The state produced by `joinRoom`, written out explicitly. -/
theorem joinRoom_fst (s : ServerState) (sid room : String) :
    (joinRoom s sid room).1 =
      { conns := setKey (joinLeavePrev s sid room (connOf s sid).room).1.conns sid
          { connOf s sid with room := some room },
        roomsUsers := setKey (joinLeavePrev s sid room (connOf s sid).room).1.roomsUsers room
          (setKey ((getKey (joinLeavePrev s sid room (connOf s sid).room).1.roomsUsers room).getD [])
            sid (orAnon (connOf s sid).username)),
        roomsHistory := (joinLeavePrev s sid room (connOf s sid).room).1.roomsHistory,
        waitingQueue := (joinLeavePrev s sid room (connOf s sid).room).1.waitingQueue } := rfl

theorem inv_joinRoom {s : ServerState} {sid room : String}
    (h : Inv s) (hroom : room ≠ "") : Inv (joinRoom s sid room).1 := by
  have hlp : Inv (joinLeavePrev s sid room (connOf s sid).room).1 :=
    inv_joinLeavePrev h
  have hconns : (joinLeavePrev s sid room (connOf s sid).room).1.conns = s.conns :=
    joinLeavePrev_conns
  rw [joinRoom_fst]
  set t := (joinLeavePrev s sid room (connOf s sid).room).1 with hdeft
  have hct : ∀ x, connOf t x = connOf s x := by
    intro x
    simp only [connOf, hconns]
  refine ⟨ku_setKey _ _ hlp.1, ?_⟩
  intro p hp
  rcases mem_setKey_ku hlp.1 hp with h2 | h2
  · subst h2
    refine ⟨hroom, ?_⟩
    intro q hq
    by_cases hqs : q.1 = sid
    · rw [hqs]
      show ((getKey (setKey t.conns sid { connOf s sid with room := some room }) sid).getD
        {}).room = some room
      rw [getKey_setKey_self]
      rfl
    · rcases mem_setKey hq with h3 | h3
      · exact absurd (by rw [h3]) hqs
      · rcases hm : getKey t.roomsUsers room with _ | m0
        · rw [hm] at h3
          simp at h3
        · rw [hm] at h3
          simp only [Option.getD_some] at h3
          show ((getKey (setKey t.conns sid { connOf s sid with room := some room }) q.1).getD
            {}).room = some room
          rw [getKey_setKey_ne _ hqs]
          have h4 := (hlp.2 (room, m0) (getKey_mem hm)).2 q h3
          rw [hct q.1] at h4
          rw [hconns]
          exact h4
  · refine ⟨(hlp.2 p h2.1).1, ?_⟩
    intro q hq
    by_cases hqs : q.1 = sid
    · exact absurd (leavePrev_no_sid h p h2.1 h2.2 q hq hqs) (fun hf => hf)
    · show ((getKey (setKey t.conns sid { connOf s sid with room := some room }) q.1).getD
        {}).room = some p.1
      rw [getKey_setKey_ne _ hqs]
      have h4 := (hlp.2 p h2.1).2 q hq
      rw [hct q.1] at h4
      rw [hconns]
      exact h4

theorem inv_disconnect {s : ServerState} {sid : String} (h : Inv s) :
    Inv (disconnect s sid).1 := by
  obtain ⟨hku, hprop⟩ := h
  simp only [disconnect]
  split
  next room heq =>
    have hcr : (connOf s sid).room = some room := heq
    split
    next hcond =>
      obtain ⟨hroom, hsome⟩ := hcond
      have hm0ex : ∃ m0, getKey s.roomsUsers room = some m0 :=
        Option.isSome_iff_exists.mp hsome
      obtain ⟨m0, hm0⟩ := hm0ex
      rw [hm0]
      simp only [Option.getD_some]
      split
      next hlen =>
        -- the room became empty and its registry entry was deleted
        refine ⟨ku_delKey _ (ku_setKey _ _ hku), ?_⟩
        intro p hp
        obtain ⟨hp1, hp2⟩ := mem_delKey hp
        rcases mem_setKey_ku hku hp1 with h2 | h2
        · exact absurd (by rw [h2]) hp2
        · refine ⟨(hprop p h2.1).1, ?_⟩
          intro q hq
          by_cases hqs : q.1 = sid
          · have h3 := (hprop p h2.1).2 q hq
            rw [hqs, hcr] at h3
            exact absurd (Option.some_inj.mp h3).symm hp2
          · show ((getKey (delKey s.conns sid) q.1).getD {}).room = some p.1
            rw [getKey_delKey_ne hqs]
            exact (hprop p h2.1).2 q hq
      next hlen =>
        -- the room keeps other members
        refine ⟨ku_setKey _ _ hku, ?_⟩
        intro p hp
        rcases mem_setKey_ku hku hp with h2 | h2
        · subst h2
          refine ⟨hroom, ?_⟩
          intro q hq
          obtain ⟨hq1, hq2⟩ := mem_delKey hq
          show ((getKey (delKey s.conns sid) q.1).getD {}).room = some room
          rw [getKey_delKey_ne hq2]
          exact (hprop (room, m0) (getKey_mem hm0)).2 q hq1
        · refine ⟨(hprop p h2.1).1, ?_⟩
          intro q hq
          by_cases hqs : q.1 = sid
          · have h3 := (hprop p h2.1).2 q hq
            rw [hqs, hcr] at h3
            have hpr : p.1 = room := (Option.some_inj.mp h3).symm
            exact absurd hpr h2.2
          · show ((getKey (delKey s.conns sid) q.1).getD {}).room = some p.1
            rw [getKey_delKey_ne hqs]
            exact (hprop p h2.1).2 q hq
    next hncond =>
      refine ⟨hku, ?_⟩
      intro p hp
      refine ⟨(hprop p hp).1, ?_⟩
      intro q hq
      by_cases hqs : q.1 = sid
      · have h3 := (hprop p hp).2 q hq
        rw [hqs, hcr] at h3
        have hpr : p.1 = room := (Option.some_inj.mp h3).symm
        exact absurd ⟨hpr ▸ (hprop p hp).1,
          hpr ▸ getKey_isSome_of_mem hp⟩ hncond
      · show ((getKey (delKey s.conns sid) q.1).getD {}).room = some p.1
        rw [getKey_delKey_ne hqs]
        exact (hprop p hp).2 q hq
  next heq =>
    have hcr : (connOf s sid).room = none := heq
    refine ⟨hku, ?_⟩
    intro p hp
    refine ⟨(hprop p hp).1, ?_⟩
    intro q hq
    by_cases hqs : q.1 = sid
    · have h3 := (hprop p hp).2 q hq
      rw [hqs, hcr] at h3
      exact Option.noConfusion h3
    · show ((getKey (delKey s.conns sid) q.1).getD {}).room = some p.1
      rw [getKey_delKey_ne hqs]
      exact (hprop p hp).2 q hq

/-- Per-event preservation of the membership invariant for all events
allowed by `eventOK`. -/
theorem inv_step {s : ServerState} {e : Event}
    (h : Inv s) (hok : eventOK e = true) : Inv (step s e).1 := by
  cases e with
  | username sid name => exact inv_setUsername h
  | joinRoom sid room =>
    have hroom : room ≠ "" := by
      simpa [eventOK] using hok
    exact inv_joinRoom h hroom
  | sendDrawingCommand sid cmd? => exact inv_sendDrawingCommand h
  | clearCanvas sid room => exact inv_clearCanvas h
  | undoCommand sid room => exact inv_undoCommand h
  | redoCommand sid room => exact inv_redoCommand h
  | chatMessage sid data => exact inv_chatMessage h
  | findPartner sid name fresh => simp [eventOK] at hok
  | cancelMatch sid => exact inv_cancelMatch h
  | disconnect sid => exact inv_disconnect h

/-
Waiting-queue exclusivity: each socket id occurs at most once in the
matchmaking queue, preserved by every event handler.
-/

theorem joinRoom_queue (s : ServerState) (sid room : String) :
    (joinRoom s sid room).1.waitingQueue = s.waitingQueue := by
  rw [joinRoom_fst]
  exact joinLeavePrev_queue

theorem sendDrawingCommand_queue (s : ServerState) (sid : String) (cmd? : Option Command) :
    (sendDrawingCommand s sid cmd?).1.waitingQueue = s.waitingQueue := by
  simp only [sendDrawingCommand]
  split
  · split <;> rfl
  · rfl

theorem clearCanvas_fst_queue (s : ServerState) (room : String) :
    (clearCanvas s room).1.waitingQueue = s.waitingQueue := by
  simp only [clearCanvas]
  split <;> rfl

theorem undoCommand_fst (s : ServerState) (room : String) :
    (undoCommand s room).1 = s := by
  simp only [undoCommand]
  split
  · split <;> rfl
  · rfl

theorem redoCommand_fst (s : ServerState) (room : String) :
    (redoCommand s room).1 = s := by
  simp only [redoCommand]
  split
  · split <;> rfl
  · rfl

theorem chatMessage_fst (s : ServerState) (sid data : String) :
    (chatMessage s sid data).1 = s := by
  simp only [chatMessage]
  split
  · split <;> rfl
  · rfl

theorem disconnect_queue (s : ServerState) (sid : String) :
    (disconnect s sid).1.waitingQueue = s.waitingQueue.eraseP (fun u => u.sid == sid) := by
  simp only [disconnect]
  split
  · split
    · split <;> rfl
    · rfl
  · rfl

theorem qu_findPartner {s : ServerState} {sid name fresh : String}
    (h : queueUnique s) : queueUnique (findPartner s sid name fresh).1 := by
  unfold queueUnique at h ⊢
  simp only [findPartner]
  split
  · exact h
  · split
    next hdup => exact h
    next hdup =>
      split
      next partner hfind =>
        exact List.Pairwise.sublist (List.eraseP_sublist _) h
      next hfind =>
        rw [List.pairwise_append]
        refine ⟨h, List.pairwise_singleton _ _, ?_⟩
        intro a ha b hb
        rw [List.mem_singleton] at hb
        subst hb
        show a.sid ≠ sid
        intro hcontra
        have hnone : s.waitingQueue.find? (fun u => u.sid == sid) = none := by
          cases hfd : List.find? (fun u => u.sid == sid) s.waitingQueue with
          | none => rfl
          | some w => exact absurd (by rw [hfd]; rfl) hdup
        have h2 := List.find?_eq_none.mp hnone a ha
        simp only [beq_iff_eq] at h2
        exact h2 hcontra

theorem qu_step {s : ServerState} {e : Event}
    (h : queueUnique s) : queueUnique (step s e).1 := by
  cases e with
  | username sid name => exact h
  | joinRoom sid room =>
    unfold queueUnique
    simp only [step]
    rw [joinRoom_queue]
    exact h
  | sendDrawingCommand sid cmd? =>
    unfold queueUnique
    simp only [step]
    rw [sendDrawingCommand_queue]
    exact h
  | clearCanvas sid room =>
    unfold queueUnique
    simp only [step]
    rw [clearCanvas_fst_queue]
    exact h
  | undoCommand sid room =>
    unfold queueUnique
    simp only [step]
    rw [undoCommand_fst]
    exact h
  | redoCommand sid room =>
    unfold queueUnique
    simp only [step]
    rw [redoCommand_fst]
    exact h
  | chatMessage sid data =>
    unfold queueUnique
    simp only [step]
    rw [chatMessage_fst]
    exact h
  | findPartner sid name fresh => exact qu_findPartner h
  | cancelMatch sid =>
    exact List.Pairwise.sublist (List.eraseP_sublist _) h
  | disconnect sid =>
    unfold queueUnique
    simp only [step]
    rw [disconnect_queue]
    exact List.Pairwise.sublist (List.eraseP_sublist _) h

/-
Emission classification and the replay behaviour of joins.
-/

theorem joinLeavePrev_filterInit (s : ServerState) (sid room : String) (prev? : Option String) :
    ((joinLeavePrev s sid room prev?).2).filter isInitEmit = [] := by
  simp only [joinLeavePrev]
  split
  · rfl
  · split <;> rfl

theorem joinLeavePrev_filterErr (s : ServerState) (sid room : String) (prev? : Option String) :
    ((joinLeavePrev s sid room prev?).2).filter isErrEmit = [] := by
  simp only [joinLeavePrev]
  split
  · rfl
  · split <;> rfl

/-- The emissions of `joinRoom`, written out explicitly: whatever the
leave-previous-room step emitted, then the presence count of the
joined room, then the history replay to the joining socket only. -/
theorem joinRoom_snd (s : ServerState) (sid room : String) :
    (joinRoom s sid room).2 =
      (joinLeavePrev s sid room (connOf s sid).room).2 ++
        [mkUsersEmit (joinRoom s sid room).1 room,
         ⟨.toSocket sid, .initCanvas ((getKey s.roomsHistory room).getD [])⟩] := by
  have hh : (joinRoom s sid room).1.roomsHistory = s.roomsHistory := by
    rw [joinRoom_fst]
    exact joinLeavePrev_hist
  show (joinLeavePrev s sid room (connOf s sid).room).2 ++
      [mkUsersEmit (joinRoom s sid room).1 room,
       ⟨.toSocket sid, .initCanvas ((getKey (joinRoom s sid room).1.roomsHistory room).getD [])⟩] = _
  rw [hh]

/-- The history replay of a join goes exactly once, to the joining
socket only, and carries the current log of the joined room. -/
theorem joinRoom_replay (s : ServerState) (sid room : String) :
    ((joinRoom s sid room).2).filter isInitEmit =
      [⟨.toSocket sid, .initCanvas ((getKey s.roomsHistory room).getD [])⟩] := by
  rw [joinRoom_snd, List.filter_append, joinLeavePrev_filterInit]
  rfl

/-- `joinRoom` never emits an error notification. -/
theorem joinRoom_no_error (s : ServerState) (sid room : String) :
    ((joinRoom s sid room).2).filter isErrEmit = [] := by
  rw [joinRoom_snd, List.filter_append, joinLeavePrev_filterErr]
  rfl

/-
The id-addressed update operation of the specification.
-/

theorem replaceById_append (upd c : Command) (post : List Command) :
    ∀ pre : List Command, (∀ c2 ∈ pre, c2.id ≠ upd.id) → c.id = upd.id →
      replaceById (pre ++ c :: post) upd =
        pre ++ { c with fields := upd.fields } :: post := by
  intro pre
  induction pre with
  | nil =>
    intro _ hc
    simp only [List.nil_append, replaceById, if_pos hc]
  | cons c2 rest ih =>
    intro hpre hc
    have h2 : c2.id ≠ upd.id := hpre c2 (List.mem_cons_self _ _)
    simp only [List.cons_append, replaceById, if_neg h2, List.append_eq]
    rw [ih (fun c3 hc3 => hpre c3 (List.mem_cons_of_mem _ hc3)) hc]

/-
The claims about the server, settled one by one.
-/

/-- C1 counterexample: with room R holding the single-command log
[cmdA], the undoCommand handler leaves the log at length 1 (the claim
requires length 0) while still broadcasting the undo signal. -/
theorem c1_counterexample :
    (undoCommand histOnly "R").1 = histOnly ∧
    getKey (undoCommand histOnly "R").1.roomsHistory "R" = some [cmdA] ∧
    (undoCommand histOnly "R").2 = [⟨.toRoom "R", .undoSignal⟩] ∧
    ([cmdA] : List Command).length ≠ 0 := by
  refine ⟨by decide, by decide, by decide, by decide⟩

/-- C1 (amended): the undoCommand handler never changes any state; on
a room with a nonempty log (and nonempty room code) it broadcasts a
stateless undo signal to the room, and otherwise it is a complete
no-op with no broadcast. -/
theorem c1_undo_stateless (s : ServerState) (room : String) :
    (undoCommand s room).1 = s ∧
    ((room ≠ "" ∧ ∃ hist, getKey s.roomsHistory room = some hist ∧ 0 < hist.length) →
      (undoCommand s room).2 = [⟨.toRoom room, .undoSignal⟩]) ∧
    (¬(room ≠ "" ∧ ∃ hist, getKey s.roomsHistory room = some hist ∧ 0 < hist.length) →
      (undoCommand s room).2 = []) := by
  refine ⟨undoCommand_fst s room, ?_, ?_⟩
  · rintro ⟨hroom, hist, hg, hlen⟩
    simp only [undoCommand, hg]
    rw [if_pos ⟨hroom, hlen⟩]
  · intro hn
    simp only [undoCommand]
    rcases hg : getKey s.roomsHistory room with _ | hist
    · rfl
    · dsimp only
      rw [if_neg ?_]
      intro hcond
      exact hn ⟨hcond.1, hist, hg, hcond.2⟩

/-- C1 witness: the amended theorem applied to the concrete state
with log [cmdA] in room R. -/
theorem c1_undo_stateless_witness :
    (undoCommand histOnly "R").2 = [⟨.toRoom "R", .undoSignal⟩] :=
  (c1_undo_stateless histOnly "R").2.1 ⟨by decide, [cmdA], by decide, by decide⟩

/-- C2 counterexample: a join with the empty room code is not
rejected — the connection is recorded in the member map of the room
with the empty code, and the emissions are the presence count and the
history replay, with no error notification. -/
theorem c2_counterexample :
    (joinRoom ({} : ServerState) "A" "").1.roomsUsers = [("", [("A", "Anonymous")])] ∧
    (joinRoom ({} : ServerState) "A" "").2 =
      [⟨.toRoom "", .updateUsers 1⟩, ⟨.toSocket "A", .initCanvas []⟩] := by
  refine ⟨by decide, by decide⟩

/-- C2 (amended): the joinRoom handler performs no validation of the
room code: for every room code, including the empty string, the
joining socket is recorded in that room's member map and no error
notification is ever emitted. -/
theorem c2_join_unvalidated (s : ServerState) (sid room : String) :
    (∃ m, getKey (joinRoom s sid room).1.roomsUsers room = some m ∧
        getKey m sid = some (orAnon (connOf s sid).username)) ∧
    ((joinRoom s sid room).2).filter isErrEmit = [] := by
  constructor
  · rw [joinRoom_fst]
    exact ⟨_, getKey_setKey_self _ _ _, getKey_setKey_self _ _ _⟩
  · exact joinRoom_no_error s sid room

/-- C8 counterexample: room R has a retained one-command history but
no member entry in roomsUsers, so the clearCanvas handler is a
complete no-op — the log stays nonempty and nothing is broadcast. -/
theorem c8_counterexample :
    clearCanvas histOnly "R" = (histOnly, []) ∧
    getKey (clearCanvas histOnly "R").1.roomsHistory "R" = some [cmdA] := by
  refine ⟨by decide, by decide⟩

/-- C8 (amended): for a room with a nonempty code that is present in
the member registry, clearCanvas empties the log regardless of its
prior length and broadcasts the clear signal to the room; for a room
with no current member entry (or an empty code) it is a no-op. -/
theorem c8_clear (s : ServerState) (room : String) :
    ((room ≠ "" ∧ (getKey s.roomsUsers room).isSome = true) →
      getKey (clearCanvas s room).1.roomsHistory room = some [] ∧
      (clearCanvas s room).2 = [⟨.toRoom room, .clearSignal⟩]) ∧
    (¬(room ≠ "" ∧ (getKey s.roomsUsers room).isSome = true) →
      clearCanvas s room = (s, [])) := by
  constructor
  · intro hcond
    simp only [clearCanvas]
    rw [if_pos hcond]
    exact ⟨getKey_setKey_self _ _ _, rfl⟩
  · intro hn
    simp only [clearCanvas]
    rw [if_neg hn]

/-- C8 witness: the amended theorem applied to the concrete state
where room R has one member and the one-command log [cmdA]. -/
theorem c8_clear_witness :
    getKey (clearCanvas roomWithMember "R").1.roomsHistory "R" = some [] ∧
    (clearCanvas roomWithMember "R").2 = [⟨.toRoom "R", .clearSignal⟩] :=
  (c8_clear roomWithMember "R").1 ⟨by decide, by decide⟩

/-- C10: the sendDrawingCommand handler is a complete no-op — no
state change and no broadcast — whenever the sender has no current
room or the payload carries no command. -/
theorem c10_send_guard (s : ServerState) (sid : String) (cmd? : Option Command)
    (h : (connOf s sid).room = none ∨ cmd? = none) :
    sendDrawingCommand s sid cmd? = (s, []) := by
  unfold sendDrawingCommand
  rcases h with h | h
  · rw [h]
  · rw [h]
    rcases (connOf s sid).room with _ | r
    · rfl
    · rfl

/-- C10 witness: a fresh socket (no room) sending a command changes
nothing. -/
theorem c10_send_guard_witness :
    sendDrawingCommand ({} : ServerState) "A" (some cmdA) = ({}, []) :=
  c10_send_guard {} "A" (some cmdA) (Or.inl (by decide))

/-- When the disconnecting socket is the last member of its room, the
disconnect handler deletes the room's member-registry entry, erases
the socket, and touches neither `roomsHistory` nor any other room. -/
theorem disconnect_last (s : ServerState) (sid room : String)
    (hc : (connOf s sid).room = some room) (hroom : room ≠ "")
    (m : List (String × String)) (hm1 : getKey s.roomsUsers room = some m)
    (hm2 : delKey m sid = []) :
    (disconnect s sid).1 =
      { conns := delKey s.conns sid,
        roomsUsers := delKey (setKey s.roomsUsers room []) room,
        roomsHistory := s.roomsHistory,
        waitingQueue := s.waitingQueue.eraseP (fun u => u.sid == sid) } := by
  simp only [disconnect]
  split
  next room2 heq =>
    have heq2 : (connOf s sid).room = some room2 := heq
    rw [hc] at heq2
    have hr2 : room2 = room := (Option.some_inj.mp heq2).symm
    subst hr2
    have hsome : (getKey s.roomsUsers room2).isSome := by
      rw [hm1]
      rfl
    rw [if_pos ⟨hroom, hsome⟩]
    rw [hm1]
    simp only [Option.getD_some]
    rw [hm2]
    simp
  next heq =>
    have heq2 : (connOf s sid).room = none := heq
    rw [hc] at heq2
    exact Option.noConfusion heq2

/-- C4 counterexample: socket A joins room R, draws one command, and
disconnects; the member-registry entry for R is gone, but the
one-command history is retained in memory, and a later join by B
receives that retained command — not the empty sequence — as its
replay payload. -/
theorem c4_counterexample :
    getKey (runTrace {} [.joinRoom "A" "R", .sendDrawingCommand "A" (some cmdA),
      .disconnect "A"]).1.roomsUsers "R" = none ∧
    getKey (runTrace {} [.joinRoom "A" "R", .sendDrawingCommand "A" (some cmdA),
      .disconnect "A"]).1.roomsHistory "R" = some [cmdStamped] ∧
    ((joinRoom (runTrace {} [.joinRoom "A" "R", .sendDrawingCommand "A" (some cmdA),
      .disconnect "A"]).1 "B" "R").2).filter isInitEmit =
      [⟨.toSocket "B", .initCanvas [cmdStamped]⟩] ∧
    ([cmdStamped] : List Command) ≠ [] := by
  refine ⟨by decide, by decide, by decide, by decide⟩

/-- C4 (amended): when the last member of a room leaves — by
disconnecting or by joining a different room — the room's entry is
removed from the member registry, but the room's command history is
retained in memory unchanged (a later join to the same code therefore
replays the retained history, not the empty sequence). -/
theorem c4_room_destroyed (s : ServerState) (sid prev room : String)
    (hc : (connOf s sid).room = some prev) (hprev : prev ≠ "")
    (hm : ∃ m, getKey s.roomsUsers prev = some m ∧ delKey m sid = []) :
    (getKey (disconnect s sid).1.roomsUsers prev = none ∧
     (disconnect s sid).1.roomsHistory = s.roomsHistory) ∧
    (prev ≠ room →
      getKey (joinRoom s sid room).1.roomsUsers prev = none ∧
      (joinRoom s sid room).1.roomsHistory = s.roomsHistory) := by
  obtain ⟨m, hm1, hm2⟩ := hm
  constructor
  · rw [disconnect_last s sid prev hc hprev m hm1 hm2]
    exact ⟨getKey_delKey_self _ _, rfl⟩
  · intro hpr
    constructor
    · rw [joinRoom_fst]
      rw [getKey_setKey_ne _ hpr]
      rw [hc]
      have hsome : (getKey s.roomsUsers prev).isSome := by
        rw [hm1]
        rfl
      simp only [joinLeavePrev]
      rw [if_pos ⟨hprev, hsome, hpr⟩]
      rw [hm1]
      simp only [Option.getD_some]
      rw [hm2]
      simp [getKey_delKey_self]
    · rw [joinRoom_fst]
      exact joinLeavePrev_hist

/-- C4 witness: the amended theorem applied to the state where A is
the sole member of R, for both leave paths. -/
theorem c4_room_destroyed_witness :
    (getKey (disconnect roomWithMember "A").1.roomsUsers "R" = none ∧
     (disconnect roomWithMember "A").1.roomsHistory = roomWithMember.roomsHistory) ∧
    (getKey (joinRoom roomWithMember "A" "R2").1.roomsUsers "R" = none ∧
     (joinRoom roomWithMember "A" "R2").1.roomsHistory = roomWithMember.roomsHistory) := by
  have h := c4_room_destroyed roomWithMember "A" "R" "R2" (by decide) (by decide)
    ⟨[("A", "Anonymous")], by decide, by decide⟩
  exact ⟨h.1, h.2 (by decide)⟩

/-- C5: `updateById` on a log containing a command with the update's
id replaces exactly that command's fields in place (same position,
all other commands untouched), keeps the log length unchanged, and
rebroadcasts the updated log to the room. -/
theorem c5_updateById (s : ServerState) (room : String) (upd c : Command)
    (pre post : List Command)
    (hg : getKey s.roomsHistory room = some (pre ++ c :: post))
    (hpre : ∀ c2 ∈ pre, c2.id ≠ upd.id) (hc : c.id = upd.id) :
    getKey (updateById s room upd).1.roomsHistory room =
      some (pre ++ { c with fields := upd.fields } :: post) ∧
    (pre ++ { c with fields := upd.fields } :: post).length =
      (pre ++ c :: post).length ∧
    (updateById s room upd).2 =
      [⟨.toRoom room, .logSnapshot (pre ++ { c with fields := upd.fields } :: post)⟩] := by
  have hany : (pre ++ c :: post).any (fun c2 => c2.id == upd.id) = true := by
    rw [List.any_eq_true]
    exact ⟨c, by simp, by simp [hc]⟩
  have hrepl := replaceById_append upd c post pre hpre hc
  simp only [updateById, hg]
  rw [if_pos hany, hrepl]
  exact ⟨getKey_setKey_self _ _ _, by simp, rfl⟩

/-- C5 witness: updating id a1 to x = 5 in the one-command log. -/
theorem c5_updateById_witness :
    getKey (updateById histOnly "R" updCmd).1.roomsHistory "R" =
      some [cmdUpdated] :=
  (c5_updateById histOnly "R" updCmd cmdA [] [] (by decide) (by simp) (by decide)).1

/-- C9: for every join — any state, any joiner, any room, any prior
log length — the history replay is emitted exactly once, to the
joining socket only (never as a room broadcast), and carries the
room's full current log; in particular, when a member appends one
command to a room with no prior history, a new joiner's replay
payload is exactly that stored command. -/
theorem c9_replay (s : ServerState) (sid room sender : String) (cmd : Command) :
    ((joinRoom s sid room).2).filter isInitEmit =
      [⟨.toSocket sid, .initCanvas ((getKey s.roomsHistory room).getD [])⟩] ∧
    ((connOf s sender).room = some room → room ≠ "" →
      getKey s.roomsHistory room = none →
      ((joinRoom (sendDrawingCommand s sender (some cmd)).1 sid room).2).filter isInitEmit =
        [⟨.toSocket sid, .initCanvas [{ cmd with senderSocketId := some sender }]⟩]) := by
  refine ⟨joinRoom_replay s sid room, ?_⟩
  intro hsc hroom hh
  have hsend : getKey (sendDrawingCommand s sender (some cmd)).1.roomsHistory room =
      some [{ cmd with senderSocketId := some sender }] := by
    simp only [sendDrawingCommand, hsc]
    rw [if_pos hroom]
    simp only
    rw [hh]
    simp only [Option.getD_none, List.nil_append]
    exact getKey_setKey_self _ _ _
  rw [joinRoom_replay, hsend]
  rfl

/-- C9 witness: a join to a room with an already-nonempty log replays
that log to the joiner only; and after socket S (in room R with empty
history) appends cmdA, joiner B's replay is exactly the stored
command. -/
theorem c9_replay_witness :
    ((joinRoom histOnly "B" "R").2).filter isInitEmit =
      [⟨.toSocket "B", .initCanvas [cmdA]⟩] ∧
    ((joinRoom (sendDrawingCommand senderState "S" (some cmdA)).1 "B" "R").2).filter isInitEmit =
      [⟨.toSocket "B", .initCanvas [{ cmdA with senderSocketId := some "S" }]⟩] := by
  refine ⟨(c9_replay histOnly "B" "R" "S" cmdA).1, ?_⟩
  exact (c9_replay senderState "B" "R" "S" cmdA).2 (by decide) (by decide) (by decide)

/-- C3 counterexample: socket A joins room ROOM1; socket B queues for
a partner; A then calls findPartner and is paired with B into the
fresh room NEWR00 — but A is never removed from ROOM1's member map,
so A's id is contained in the member maps of two distinct rooms at
once. -/
theorem c3_counterexample :
    memberOf (runTrace {} [.joinRoom "A" "ROOM1", .findPartner "B" "bob" "X",
      .findPartner "A" "alice" "NEWR00"]).1 "ROOM1" "A" = true ∧
    memberOf (runTrace {} [.joinRoom "A" "ROOM1", .findPartner "B" "bob" "X",
      .findPartner "A" "alice" "NEWR00"]).1 "NEWR00" "A" = true ∧
    ("ROOM1" : String) ≠ "NEWR00" := by
  refine ⟨by decide, by decide, by decide⟩

/-- C3 (amended): under the registry invariant, a connection id is
contained in at most one room's member map, and every event except
findPartner (with join restricted to nonempty room codes) preserves
the invariant; findPartner pairing does not remove the paired
connection from its previous room's member map, so it is excluded. -/
theorem c3_membership_exclusive (s : ServerState) (e : Event)
    (h : Inv s) (hok : eventOK e = true) :
    Inv (step s e).1 ∧
    (∀ c r1 r2, memberOf s r1 c = true → memberOf s r2 c = true → r1 = r2) := by
  refine ⟨inv_step h hok, ?_⟩
  intro c r1 r2 h1 h2
  have key : ∀ r, memberOf s r c = true → (connOf s c).room = some r := by
    intro r hr
    unfold memberOf at hr
    rcases hg : getKey s.roomsUsers r with _ | m
    · rw [hg] at hr
      cases hr
    · rw [hg] at hr
      obtain ⟨v, hv⟩ := Option.isSome_iff_exists.mp hr
      exact (h.2 (r, m) (getKey_mem hg)).2 (c, v) (getKey_mem hv)
  have k1 := key r1 h1
  have k2 := key r2 h2
  rw [k1] at k2
  exact Option.some_inj.mp k2

/-- C3 witness: the amended theorem applied to the empty state and a
join event. -/
theorem c3_membership_exclusive_witness :
    Inv (step ({} : ServerState) (.joinRoom "A" "R")).1 :=
  (c3_membership_exclusive {} (.joinRoom "A" "R") (by decide) (by decide)).1

/-- C7: a findPartner call from a socket whose id is already queued
leaves the waiting queue, the member registry and all histories
unchanged and emits nothing, and every event preserves queue
exclusivity (each socket id occurs at most once in the queue). -/
theorem c7_queue_exclusive (s : ServerState) (sid name fresh : String) (e : Event)
    (hname : name ≠ "")
    (hdup : (s.waitingQueue.find? (fun u => u.sid == sid)).isSome = true)
    (huniq : queueUnique s) :
    ((findPartner s sid name fresh).1.waitingQueue = s.waitingQueue ∧
     (findPartner s sid name fresh).1.roomsUsers = s.roomsUsers ∧
     (findPartner s sid name fresh).1.roomsHistory = s.roomsHistory ∧
     (findPartner s sid name fresh).2 = []) ∧
    queueUnique (step s e).1 := by
  refine ⟨?_, qu_step huniq⟩
  have ht : ¬(truthy (orElseStr name (connOf s sid).username) = false) := by
    unfold orElseStr truthy
    rw [if_neg hname]
    simpa using hname
  simp only [findPartner]
  rw [if_neg ht, if_pos hdup]
  exact ⟨rfl, rfl, rfl, rfl⟩

/-- `findPartner` on an empty queue enqueues the caller and replies
`waiting`. -/
theorem findPartner_waits (s : ServerState) (sid name f : String)
    (hn : name ≠ "") (hq : s.waitingQueue = []) :
    findPartner s sid name f =
      ({ s with
          conns := setKey s.conns sid { connOf s sid with username := some name },
          waitingQueue := [⟨sid, name⟩] },
       [⟨.toSocket sid, .waiting "Waiting for a partner..."⟩]) := by
  have hu : orElseStr name (connOf s sid).username = some name := by
    unfold orElseStr
    rw [if_neg hn]
  have ht : ¬(truthy (some name) = false) := by
    simp [truthy, hn]
  simp only [findPartner, hu, hq, List.find?_nil]
  rw [if_neg ht]
  rw [if_neg (show ¬((none : Option WaitEntry).isSome = true) by simp)]
  simp

/-- `findPartner` with exactly one (distinct) queued entry pairs the
caller with that entry: the queue empties, both sockets point at the
fresh room, both are added to the fresh room's member map, the
presence count is broadcast there, and both receive `partnerFound`
with the other's name. -/
theorem findPartner_pairs (s : ServerState) (sid name fresh : String) (p : WaitEntry)
    (hn : name ≠ "") (hq : s.waitingQueue = [p]) (hps : p.sid ≠ sid) :
    findPartner s sid name fresh =
      ({ s with
          conns := setKey (setKey s.conns sid
              { connOf s sid with username := some name, room := some fresh })
            p.sid { connOf s p.sid with room := some fresh },
          waitingQueue := [],
          roomsUsers := setKey s.roomsUsers fresh
            (setKey (setKey ((getKey s.roomsUsers fresh).getD []) sid name)
              p.sid (orAnon (connOf s p.sid).username)) },
       [⟨.toRoom fresh, .updateUsers
          (setKey (setKey ((getKey s.roomsUsers fresh).getD []) sid name)
            p.sid (orAnon (connOf s p.sid).username)).length⟩,
        ⟨.toSocket sid, .partnerFound fresh (connOf s p.sid).username⟩,
        ⟨.toSocket p.sid, .partnerFound fresh (some name)⟩]) := by
  have hu : orElseStr name (connOf s sid).username = some name := by
    unfold orElseStr
    rw [if_neg hn]
  have ht : ¬(truthy (some name) = false) := by
    simp [truthy, hn]
  have hf1 : List.find? (fun u => u.sid == sid) [p] = none := by
    rw [List.find?_cons_of_neg _ (by simp [hps]), List.find?_nil]
  have hf2 : List.find? (fun u => u.sid != sid) [p] = some p :=
    List.find?_cons_of_pos _ (by simp [hps])
  have he : List.eraseP (fun u => u.sid != sid) [p] = [] := by
    rw [List.eraseP_cons_of_pos (by simp [hps])]
  have hpc : getKey (setKey s.conns sid
      { connOf s sid with username := some name }) p.sid = getKey s.conns p.sid :=
    getKey_setKey_ne _ hps
  simp only [connOf] at hpc
  simp only [findPartner, hu, hq, hf1, hf2, he]
  rw [if_neg ht]
  rw [if_neg (show ¬((none : Option WaitEntry).isSome = true) by simp)]
  simp only [connOf, setKey_setKey_self, mkUsersEmit, usersCount,
    getKey_setKey_self, Option.getD_some, hpc]

/-- C6: with an empty waiting queue, socket A's findPartner call
enqueues A with a waiting reply; socket B's subsequent call pairs the
two into the fresh room: the fresh room's member map holds exactly
the two entries, the queue is empty again, exactly one match
notification goes to each socket carrying the fresh room code and the
other's display name, and both sockets' room pointers equal the fresh
code. -/
theorem c6_match (s : ServerState) (a b na nb f1 fresh : String)
    (hab : a ≠ b) (hna : na ≠ "") (hnb : nb ≠ "")
    (hq : s.waitingQueue = []) (hfr : getKey s.roomsUsers fresh = none) :
    (findPartner s a na f1).2 = [⟨.toSocket a, .waiting "Waiting for a partner..."⟩] ∧
    getKey (findPartner (findPartner s a na f1).1 b nb fresh).1.roomsUsers fresh =
      some [(b, nb), (a, na)] ∧
    (findPartner (findPartner s a na f1).1 b nb fresh).1.waitingQueue = [] ∧
    (findPartner (findPartner s a na f1).1 b nb fresh).2 =
      [⟨.toRoom fresh, .updateUsers 2⟩,
       ⟨.toSocket b, .partnerFound fresh (some na)⟩,
       ⟨.toSocket a, .partnerFound fresh (some nb)⟩] ∧
    (connOf (findPartner (findPartner s a na f1).1 b nb fresh).1 a).room = some fresh ∧
    (connOf (findPartner (findPartner s a na f1).1 b nb fresh).1 b).room = some fresh := by
  have h1 := findPartner_waits s a na f1 hna hq
  rw [h1]
  dsimp only
  have h2 := findPartner_pairs
    { s with
      conns := setKey s.conns a { connOf s a with username := some na },
      waitingQueue := [⟨a, na⟩] } b nb fresh ⟨a, na⟩ hnb rfl hab
  rw [h2]
  have hba : ¬(b = a) := fun h => hab h.symm
  have hca : getKey (setKey s.conns a { connOf s a with username := some na }) a =
      some { connOf s a with username := some na } := getKey_setKey_self _ _ _
  refine ⟨rfl, ?_, rfl, ?_, ?_, ?_⟩ <;>
    simp [hfr, setKey, orAnon, hna, hba, connOf, hca, getKey_setKey_self, getKey_setKey_ne]

/-- C6 witness: the pairing theorem applied to the empty state with
sockets A and B. -/
theorem c6_match_witness :
    getKey (findPartner (findPartner ({} : ServerState) "A" "alice" "X").1
        "B" "bob" "FRESH1").1.roomsUsers "FRESH1" =
      some [("B", "bob"), ("A", "alice")] ∧
    (findPartner (findPartner ({} : ServerState) "A" "alice" "X").1
        "B" "bob" "FRESH1").1.waitingQueue = [] := by
  have h := c6_match {} "A" "B" "alice" "bob" "X" "FRESH1"
    (by decide) (by decide) (by decide) (by decide) (by decide)
  exact ⟨h.2.1, h.2.2.1⟩

/-- C7 witness: the theorem applied to a state whose queue already
holds socket A, with A retrying findPartner. -/
theorem c7_queue_exclusive_witness :
    (findPartner queuedState "A" "alice" "F").1.waitingQueue = queuedState.waitingQueue ∧
    (findPartner queuedState "A" "alice" "F").1.roomsUsers = queuedState.roomsUsers ∧
    (findPartner queuedState "A" "alice" "F").1.roomsHistory = queuedState.roomsHistory ∧
    (findPartner queuedState "A" "alice" "F").2 = [] :=
  (c7_queue_exclusive queuedState "A" "alice" "F" (.cancelMatch "B")
    (by decide) (by decide) (by decide)).1

end Drawmance
